import Mathlib

/-!
Shallow embedding of the arbitrage-detection program in src/src/main.rs.

Modelling conventions, stated once here and referenced below:

* Rust `String` values (currency codes, symbols, price strings) are modelled
  as `List Char`; Rust strings are UTF-8, so byte-level slicing is modelled
  through the per-character UTF-8 byte count `charBytes`.
* `f64` rates are modelled as exact rationals `ℚ`.  The detector in the Rust
  code works with edge weights `w = -ln(rate)` and sums of such weights; `ln`
  is strictly monotone, so comparing the sum `dist[u] + w < dist[v]` of the
  code is, in exact real arithmetic, the same as comparing the products of
  the underlying rates in the opposite direction.  The embedding therefore
  stores, for each vertex, the product of rates along the best path found so
  far (the quantity `exp(-dist[v])`) instead of `dist[v]` itself, as an exact
  unreduced fraction (numerator and denominator in `ℤ`, denominator kept
  positive by construction).  Under this encoding:
  - `dist[v] = +INFINITY` of the code corresponds to the product 0;
  - the guard `new_dist.is_finite()` of the code holds exactly when the
    incoming product `dist-product[u] * rate` is strictly positive (a
    non-positive rate makes the logarithm NaN or infinite, an unreachable
    start makes the sum infinite; both are rejected by the same test);
  - `new_dist < distances[end]` of the code holds exactly when the incoming
    product strictly exceeds the stored product of `end`.
  This is the exact real-number semantics of the floating-point computation;
  rounding of `f64` logarithms is not modelled, and no claim hinges on it.
* Rust `HashSet`/`HashMap` iteration order is unspecified.  The embedding
  models the vertex set as an insertion-ordered duplicate-free list, and the
  arbitrary `vertices.iter().next()` start vertex of `find_arbitrage` as the
  head of that list.  Statements about "some possible iteration order" are
  settled by exhibiting an insertion order realising it.
* Fallible or diverging Rust constructs return `Option`: the out-of-bounds
  byte slice in `extract_currency_pair` (a Rust panic) is `none`, and a
  panic inside `process_ticker_data` makes the whole call `none`.
* The unbounded `while let` predecessor walk of `find_arbitrage` is modelled
  by the fuelled `walkF`; `find_arbitrage` supplies fuel `|V| + 1`, and the
  development proves (claim C7) that with predecessors drawn from the vertex
  set this fuel can never run out, so the fuelled function agrees with the
  unbounded loop of the code.
-/

set_option maxRecDepth 8000

/-- Currency identifiers: Rust `String`, modelled as a list of characters. -/
abbrev Currency := List Char

/-- Number of bytes of the UTF-8 encoding of a character (Rust strings are
UTF-8; used to model byte-indexed slicing of `&str`). -/
def charBytes (c : Char) : Nat :=
  if c.toNat < 0x80 then 1
  else if c.toNat < 0x800 then 2
  else if c.toNat < 0x10000 then 3
  else 4

/-- Byte length of a Rust string, i.e. the sum of the UTF-8 sizes of its
characters. -/
def utf8Len : List Char → Nat
  | [] => 0
  | c :: cs => charBytes c + utf8Len cs

/-- Split a string at a byte index, as Rust slicing `&s[0..n]` / `&s[n..]`
does: `some (before, after)` when the string has at least `n` bytes and byte
`n` falls on a character boundary, `none` (the Rust code would panic)
otherwise. -/
def byteSplit : List Char → Nat → Option (List Char × List Char)
  | rest, 0 => some ([], rest)
  | [], _ + 1 => none
  | c :: cs, m + 1 =>
    if charBytes c ≤ m + 1 then
      match byteSplit cs (m + 1 - charBytes c) with
      | some (a, b) => some (c :: a, b)
      | none => none
    else none

/-- `extract_currency_pair` (main.rs lines 12 to 16): base is the first 3
bytes of the symbol, quote is the rest.  `none` models the Rust panic of the
slice `&symbol[0..3]` when the symbol is shorter than 3 bytes or byte 3 is
not a character boundary. -/
def extract_currency_pair (symbol : List Char) : Option (List Char × List Char) :=
  byteSplit symbol 3

/-- `struct Edge` (main.rs lines 26 to 30).  The Rust field `end` is a Lean
keyword and is rendered `endV`. -/
structure Edge where
  start : Currency
  endV : Currency
  rate : ℚ
deriving DecidableEq

/-- `struct Graph` (main.rs lines 32 to 35): a vector of edges plus a hash
set of vertices, the latter modelled as an insertion-ordered duplicate-free
list. -/
structure Graph where
  edges : List Edge
  vertices : List Currency
deriving DecidableEq

/-- `Graph::new` (main.rs lines 38 to 43). -/
def Graph.new : Graph :=
  { edges := [], vertices := [] }

/-- `HashSet::insert`: no-op when the element is already present, otherwise
append (insertion order). -/
def insertV (l : List Currency) (v : Currency) : List Currency :=
  if v ∈ l then l else l ++ [v]

/-- `Graph::add_edge` (main.rs lines 45 to 49): insert both endpoints into
the vertex set and push the edge, unconditionally — no rate validation and
no duplicate check. -/
def Graph.add_edge (g : Graph) (s e : Currency) (r : ℚ) : Graph :=
  { edges := g.edges ++ [{ start := s, endV := e, rate := r }],
    vertices := insertV (insertV g.vertices s) e }

/-- Helper for `Graph::update_edge`: overwrite the rate of the first edge
matching `(s, e)`, leave the list unchanged when none matches. -/
def updateFirst : List Edge → Currency → Currency → ℚ → List Edge
  | [], _, _, _ => []
  | ed :: es, s, e, r =>
    if ed.start = s ∧ ed.endV = e then { ed with rate := r } :: es
    else ed :: updateFirst es s e r

/-- `Graph::update_edge` (main.rs lines 51 to 55): `iter_mut().find(...)` on
the edge vector, mutating the rate of the first match; nothing is inserted
when no edge matches, and the vertex set is untouched. -/
def Graph.update_edge (g : Graph) (s e : Currency) (r : ℚ) : Graph :=
  { g with edges := updateFirst g.edges s e r }

/-- Exact unreduced fraction: the stored best rate-product of a vertex (see
the header comment; the value is `fst / snd`, the denominator is positive by
construction, and numerator 0 encodes the infinite distance). -/
abbrev Frac := ℤ × ℤ

/-- Multiply a stored product by an edge rate, without normalising. -/
def fmul (p : Frac) (r : ℚ) : Frac :=
  (p.1 * r.num, p.2 * (r.den : ℤ))

/-- Strict value comparison of fractions with positive denominators, by
cross-multiplication. -/
def fltB (a b : Frac) : Bool :=
  decide (a.1 * b.2 < b.1 * a.2)

/-- Strict positivity of a fraction with positive denominator. -/
def fposB (a : Frac) : Bool :=
  decide (0 < a.1)

/-- The two hash maps `distances` and `predecessors` of `find_arbitrage`,
as total maps (the code initialises every vertex before use). -/
structure BFState where
  dist : Currency → Frac
  pred : Currency → Option Currency

/-- One relaxation step of `find_arbitrage` (main.rs lines 71 to 81): under
the product encoding, `weight = -rate.log(E)`, `new_dist = dist[start] +
weight`, and the guard `new_dist.is_finite() && new_dist < distances[end]`
becomes `0 < product && product > stored-product[end]`. -/
def relaxEdge (s : BFState) (e : Edge) : BFState :=
  let p := fmul (s.dist e.start) e.rate
  if fposB p && fltB (s.dist e.endV) p then
    { dist := fun v => if v = e.endV then p else s.dist v,
      pred := fun v => if v = e.endV then some e.start else s.pred v }
  else s

/-- One pass of the inner `for edge in &self.edges` loop. -/
def relaxPass (s : BFState) (es : List Edge) : BFState :=
  es.foldl relaxEdge s

/-- The outer `for _ in 1..self.vertices.len()` loop (main.rs line 70):
`n` relaxation passes (the Rust range runs `len - 1` times). -/
def relaxRounds (s : BFState) (es : List Edge) : Nat → BFState
  | 0 => s
  | n + 1 => relaxRounds (relaxPass s es) es n

/-- The negative-cycle test of the final sweep (main.rs lines 85 to 89):
same guard as relaxation, evaluated on the state after all rounds. -/
def checkEdge (s : BFState) (e : Edge) : Bool :=
  fposB (fmul (s.dist e.start) e.rate) &&
    fltB (s.dist e.endV) (fmul (s.dist e.start) e.rate)

/-- The Bellman-Ford state after initialisation (main.rs lines 61 to 67:
every vertex at infinity, i.e. product 0, the start vertex at distance 0,
i.e. product 1, no predecessors) and `len - 1` relaxation rounds. -/
def bfFinal (g : Graph) (startV : Currency) : BFState :=
  relaxRounds
    { dist := fun v => if v = startV then ((1 : ℤ), (1 : ℤ)) else ((0 : ℤ), (1 : ℤ)),
      pred := fun _ => none }
    g.edges (g.vertices.length - 1)

/-- Result of the predecessor walk: a cycle was closed, the predecessor
chain ended at a vertex with no predecessor (the `while let` loop exits and
the code breaks out, reporting nothing), or the fuel ran out (a modelling
artefact only; proved unreachable for the fuel used by `find_arbitrage`). -/
inductive WalkRes where
  | found : List Currency → WalkRes
  | chainEnd : WalkRes
  | fuelOut : WalkRes
deriving DecidableEq

/-- The reconstruction loop of `find_arbitrage` (main.rs lines 91 to 101):
follow predecessors from `last`, accumulating visited vertices in `cycle`;
when the next predecessor is already in `cycle`, push it, reverse, and
return.  The Rust loop is unbounded; the fuel parameter only makes the
recursion structural. -/
def walkF (pr : Currency → Option Currency) : Nat → List Currency → Currency → WalkRes
  | 0, _, _ => WalkRes.fuelOut
  | n + 1, cycle, last =>
    match pr last with
    | none => WalkRes.chainEnd
    | some p =>
      if p ∈ cycle then WalkRes.found ((cycle ++ [p]).reverse)
      else walkF pr n (cycle ++ [p]) p

/-- `Graph::find_arbitrage` (main.rs lines 57 to 108): pick an arbitrary
start vertex (`None` when there are no vertices), initialise and relax for
`len - 1` rounds, then sweep the edges once; the first edge still relaxable
starts a predecessor walk from its `end` vertex.  A walk that closes a cycle
returns it; a walk whose chain ends leaves the sweep by `break`, returning
`None`.  Fuel `|V| + 1` stands in for the unbounded Rust loop (see `walkF`
and claim C7). -/
def find_arbitrage (g : Graph) : Option (List Currency) :=
  match g.vertices with
  | [] => none
  | startV :: _ =>
    match g.edges.find? (checkEdge (bfFinal g startV)) with
    | none => none
    | some e =>
      match walkF (bfFinal g startV).pred (g.vertices.length + 1) [e.endV] e.endV with
      | WalkRes.found c => some c
      | WalkRes.chainEnd => none
      | WalkRes.fuelOut => none

/-- `struct TickerData` (main.rs lines 19 to 24): symbol and last price,
both strings. -/
structure TickerData where
  s : List Char
  c : List Char
deriving DecidableEq

/-- Value of a digit string, most significant first. -/
def digitsToNat (l : List Char) : Nat :=
  l.foldl (fun a c => a * 10 + (c.toNat - 48)) 0

/-- Unsigned part of `str::parse::<f64>()`: digits with an optional single
decimal point (at least one digit in total).  The exact rational value is
built with `mkRat`; exponent, `inf` and `NaN` forms of the Rust grammar are
not modelled — no claim exercises them, and the theorems below quantify over
the outcome of the parse, not its domain. -/
def parseUnsigned (l : List Char) : Option ℚ :=
  match l.span (fun c => c.isDigit) with
  | (ip, rest) =>
    match rest with
    | [] => if ip.isEmpty then none else some (mkRat (digitsToNat ip) 1)
    | '.' :: fp =>
      if fp.all (fun c => c.isDigit) && !(ip.isEmpty && fp.isEmpty) then
        some (mkRat (digitsToNat ip * 10 ^ fp.length + digitsToNat fp) (10 ^ fp.length))
      else none
    | _ => none

/-- `data.c.parse::<f64>()` (main.rs line 115): optional sign, then the
unsigned decimal form. -/
def parsePrice (l : List Char) : Option ℚ :=
  match l with
  | '-' :: rest => (parseUnsigned rest).map (fun q => -q)
  | '+' :: rest => parseUnsigned rest
  | _ => parseUnsigned l

/-- One iteration of the `for data in ticker_data` loop of
`process_ticker_data` (main.rs lines 113 to 123): extract the pair (a panic
propagates as `none`), parse the price (a parse failure skips the tick via
`continue`), and apply `update_edge`. -/
def applyTick (g : Graph) (d : TickerData) : Option Graph :=
  match extract_currency_pair d.s with
  | none => none
  | some (startC, endC) =>
    match parsePrice d.c with
    | none => some g
    | some p => some (g.update_edge startC endC p)

/-- The whole tick loop of `process_ticker_data`. -/
def applyTicks (g : Graph) : List TickerData → Option Graph
  | [] => some g
  | d :: ds =>
    match applyTick g d with
    | none => none
    | some g2 => applyTicks g2 ds

/-- `process_ticker_data` (main.rs lines 112 to 130): apply every tick, then
run `find_arbitrage` once on the resulting graph.  The returned pair is the
final graph state and the detection outcome the code would print; `none`
models a panic escaping the function. -/
def process_ticker_data (g : Graph) (batch : List TickerData) : Option (Graph × Option (List Currency)) :=
  match applyTicks g batch with
  | none => none
  | some g2 => some (g2, find_arbitrage g2)

/-- Ordered-pair key of an edge, the identity the spec indexes edges by. -/
def edgeKey (e : Edge) : Currency × Currency :=
  (e.start, e.endV)

/-- Currency A of the worked examples. -/
def aC : Currency := ['A']

/-- Currency B of the worked examples. -/
def bC : Currency := ['B']

/-- Currency C of the worked examples. -/
def cC : Currency := ['C']

/-- Currency D of the worked examples. -/
def dC : Currency := ['D']

/-- Currency E of the worked examples. -/
def eC : Currency := ['E']

/-- Currency X of the worked examples. -/
def xC : Currency := ['X']

/-- Currency Y of the worked examples. -/
def yC : Currency := ['Y']

/-- The three-currency arbitrage graph of the spec example: A to B at rate
2, B to C at rate 3, C to A at rate 0.2, inserted in that order. -/
def G3 : Graph :=
  ((Graph.new.add_edge aC bC 2).add_edge bC cC 3).add_edge cC aC (mkRat 2 10)

/-- The same arbitrage cycle plus a second connected component D to E that
is inserted first, so the arbitrary start vertex of the detector falls in
the component without the cycle. -/
def G3bad : Graph :=
  (((Graph.new.add_edge dC eC 1).add_edge aC bC 2).add_edge bC cC 3).add_edge cC aC (mkRat 2 10)

/-- A profitable two-currency loop A, B with an extra spoke B to X inserted
first: the final sweep triggers on the spoke edge, so the predecessor walk
starts outside the cycle and the returned sequence carries a tail. -/
def G5 : Graph :=
  ((Graph.new.add_edge bC xC 1).add_edge aC bC 3).add_edge bC aC 1

/-- Same shape as `G5` with the spoke leading to Y, used for the walk-shape
counterexample of claim C7. -/
def G7 : Graph :=
  ((Graph.new.add_edge bC yC 1).add_edge aC bC 3).add_edge bC aC 1

/-- `updateFirst` may change a rate but never the ordered-pair keys of the
edge list. -/
theorem updateFirst_map_key (es : List Edge) (s t : Currency) (r : ℚ) :
    (updateFirst es s t r).map edgeKey = es.map edgeKey := by
  induction es with
  | nil => rfl
  | cons ed es ih =>
    unfold updateFirst
    by_cases h : ed.start = s ∧ ed.endV = t
    · rw [if_pos h]
      simp [edgeKey]
    · rw [if_neg h]
      simp only [List.map_cons, ih]

/-- Claim C1 counterexample: applying the tick (A, B, 2) to the empty graph
through the tick path of the code (`update_edge`) stores nothing at all —
in particular the graph contains neither the forward edge (A, B, 2) nor the
inverse edge (B, A, 1/2), refuting the claimed atomic forward-and-inverse
upsert. -/
theorem C1_cex :
    (Graph.new.update_edge aC bC 2).edges = [] ∧
    ¬ ∃ e ∈ (Graph.new.update_edge aC bC 2).edges, e.start = bC ∧ e.endV = aC := by
  decide

/-- Claim C1 (corrected): the tick path of the code calls only
`update_edge`, which never inserts an edge or a vertex — the ordered-pair
keys and the vertex list are unchanged, so the inverse edge (to, from)
exists after the call exactly when it already existed before; no inverse
edge is ever created, and no atomic pair insertion exists in the code. -/
theorem C1_amended : ∀ (g : Graph) (s t : Currency) (r : ℚ),
    (g.update_edge s t r).edges.map edgeKey = g.edges.map edgeKey ∧
    (g.update_edge s t r).vertices = g.vertices ∧
    ((t, s) ∈ (g.update_edge s t r).edges.map edgeKey ↔ (t, s) ∈ g.edges.map edgeKey) := by
  intro g s t r
  refine ⟨updateFirst_map_key g.edges s t r, rfl, ?_⟩
  rw [show (g.update_edge s t r).edges = updateFirst g.edges s t r from rfl,
    updateFirst_map_key]

/-- Claim C2 counterexample: the code splits DOGEUSDT at byte 3, giving
(DOG, EUSDT), not the claimed (DOGE, USDT). -/
theorem C2_cex :
    extract_currency_pair (['D','O','G','E','U','S','D','T']) ≠
      some (['D','O','G','E'], ['U','S','D','T']) := by
  decide

/-- Claim C2 (corrected): the normaliser is a fixed split at byte 3 with no
quote-currency dictionary: BTCUSDT happens to give (BTC, USDT) as claimed,
but DOGEUSDT gives (DOG, EUSDT). -/
theorem C2_amended :
    extract_currency_pair (['B','T','C','U','S','D','T']) =
      some (['B','T','C'], ['U','S','D','T']) ∧
    extract_currency_pair (['D','O','G','E','U','S','D','T']) =
      some (['D','O','G'], ['E','U','S','D','T']) := by
  decide

/-- Claim C3 counterexample: `G3bad` contains the profitable cycle A, B, C
(rates 2, 3, 0.2), yet the detector reports nothing, because its single
arbitrary start vertex (modelled as the first vertex of the set, here D)
lies in a component from which the cycle is unreachable — there is no
virtual source in the code. -/
theorem C3_cex : find_arbitrage G3bad = none := by
  decide

/-- Claim C3 (corrected): only when the start vertex can reach the cycle is
it found.  On the graph whose vertices are exactly A, B, C with edges A to B
rate 2, B to C rate 3, C to A rate 0.2, the detector returns the cycle
[B, C, A, B], a valid rotation visiting exactly the currencies A, B, C; but
the guarantee is not independent of connectivity (see the counterexample). -/
theorem C3_amended :
    find_arbitrage G3 = some [bC, cC, aC, bC] ∧
    (∀ x ∈ [bC, cC, aC, bC], x ∈ [aC, bC, cC]) ∧
    (∀ x ∈ [aC, bC, cC], x ∈ [bC, cC, aC, bC]) := by
  decide

/-- Claim C4 counterexample: `add_edge` with the invalid rate 0 stores the
edge and grows the edge count from 0 to 1 — nothing is rejected and there is
no `InvalidRate` error in the code. -/
theorem C4_cex :
    (Graph.new.add_edge aC bC 0).edges.length = 1 ∧
    (Graph.new.add_edge aC bC 0).edges.length ≠ Graph.new.edges.length := by
  decide

/-- Claim C4 (corrected): the graph performs no rate validation at all:
for every rate, including zero and negative values (NaN and infinities fall
outside the rational model but are likewise stored unchecked by the code),
`add_edge` appends the edge unconditionally, growing the edge count by one,
and the appended edge carries the given rate. -/
theorem C4_amended : ∀ (g : Graph) (s t : Currency) (r : ℚ),
    (g.add_edge s t r).edges.length = g.edges.length + 1 ∧
    ({ start := s, endV := t, rate := r } : Edge) ∈ (g.add_edge s t r).edges := by
  intro g s t r
  constructor
  · simp [Graph.add_edge]
  · simp [Graph.add_edge]

/-- Claim C6 counterexample: two `add_edge` calls for the same ordered pair
(A, B) leave two live edges with that key in the graph, refuting the
at-most-one-edge-per-ordered-pair invariant. -/
theorem C6_cex :
    (((Graph.new.add_edge aC bC 1).add_edge aC bC 2).edges.map edgeKey) =
      [(aC, bC), (aC, bC)] := by
  decide

/-- Claim C6 (corrected): `update_edge` indeed never adds a second edge — it
rewrites the rate of the first matching edge in place, preserving the edge
count and every ordered-pair key — but `add_edge` appends unconditionally,
so the data structure itself does not maintain the at-most-one-live-edge
invariant; repeated `add_edge` calls for one ordered pair accumulate
duplicates. -/
theorem C6_amended : ∀ (g : Graph) (s t : Currency) (r : ℚ),
    (g.update_edge s t r).edges.length = g.edges.length ∧
    (g.update_edge s t r).edges.map edgeKey = g.edges.map edgeKey := by
  intro g s t r
  constructor
  · have h := updateFirst_map_key g.edges s t r
    have h2 := congrArg List.length h
    simpa using h2
  · exact updateFirst_map_key g.edges s t r

/-- On strings of single-byte characters, the byte split at `n` is the plain
`take`/`drop` split whenever the string has at least `n` characters. -/
theorem byteSplit_ascii : ∀ (n : Nat) (s : List Char), (∀ c ∈ s, charBytes c = 1) →
    n ≤ s.length → byteSplit s n = some (s.take n, s.drop n) := by
  intro n
  induction n with
  | zero =>
    intro s _ _
    simp [byteSplit]
  | succ m ih =>
    intro s hasc hlen
    cases s with
    | nil => simp at hlen
    | cons c cs =>
      have hc : charBytes c = 1 := hasc c (by simp)
      unfold byteSplit
      rw [hc]
      rw [if_pos (by omega)]
      have hm : m + 1 - 1 = m := by omega
      rw [hm]
      rw [ih cs (fun x hx => hasc x (by simp [hx]))
        (by simp only [List.length_cons] at hlen; omega)]
      simp

/-- A string with fewer than `n` bytes cannot be byte-split at `n`. -/
theorem byteSplit_short : ∀ (s : List Char) (n : Nat), utf8Len s < n →
    byteSplit s n = none := by
  intro s
  induction s with
  | nil =>
    intro n h
    cases n with
    | zero => omega
    | succ m => rfl
  | cons c cs ih =>
    intro n h
    cases n with
    | zero => omega
    | succ m =>
      unfold byteSplit
      by_cases hc : charBytes c ≤ m + 1
      · rw [if_pos hc, ih (m + 1 - charBytes c) (by simp only [utf8Len] at h; omega)]
      · rw [if_neg hc]

/-- A successful byte split decomposes the string and its prefix has exactly
the requested number of bytes. -/
theorem byteSplit_some : ∀ (s : List Char) (n : Nat) (a b : List Char),
    byteSplit s n = some (a, b) → s = a ++ b ∧ utf8Len a = n := by
  intro s
  induction s with
  | nil =>
    intro n a b h
    cases n with
    | zero =>
      simp only [byteSplit, Option.some.injEq, Prod.mk.injEq] at h
      obtain ⟨ha, hb⟩ := h
      subst ha
      subst hb
      exact ⟨rfl, rfl⟩
    | succ m => exact absurd h (by simp [byteSplit])
  | cons c cs ih =>
    intro n a b h
    cases n with
    | zero =>
      simp only [byteSplit, Option.some.injEq, Prod.mk.injEq] at h
      obtain ⟨ha, hb⟩ := h
      subst ha
      subst hb
      exact ⟨rfl, rfl⟩
    | succ m =>
      unfold byteSplit at h
      by_cases hc : charBytes c ≤ m + 1
      · rw [if_pos hc] at h
        cases hbs : byteSplit cs (m + 1 - charBytes c) with
        | none => rw [hbs] at h; exact absurd h (by simp)
        | some ab =>
          obtain ⟨a1, b1⟩ := ab
          rw [hbs] at h
          simp only [Option.some.injEq, Prod.mk.injEq] at h
          obtain ⟨ha, hb⟩ := h
          subst ha
          subst hb
          obtain ⟨hs, hlen⟩ := ih (m + 1 - charBytes c) a1 b1 hbs
          constructor
          · rw [hs]
            rfl
          · simp only [utf8Len]
            omega
      · rw [if_neg hc] at h
        exact absurd h (by simp)

/-- Claim C8 counterexample: the self-pair symbol USDTUSDT is not rejected —
the code returns the byte-3 split (USD, TUSDT) instead of failing, and no
`InvalidSymbol` error exists anywhere in the code. -/
theorem C8_cex :
    extract_currency_pair (['U','S','D','T','U','S','D','T']) ≠ none := by
  decide

/-- Claim C8 (corrected): there is no `InvalidSymbol` failure and no quote
dictionary: every symbol of single-byte characters with at least 3 of them
is split into (first 3 bytes, rest), no matter whether a quote suffix
matches, whether the base is empty, or whether the halves coincide; in
particular USDTUSDT gives (USD, TUSDT).  The only failure of the function is
the out-of-bounds panic modelled in claim C10. -/
theorem C8_amended : ∀ s : List Char, (∀ c ∈ s, charBytes c = 1) → 3 ≤ s.length →
    extract_currency_pair s = some (s.take 3, s.drop 3) :=
  fun s h1 h2 => byteSplit_ascii 3 s h1 h2

/-- Claim C8 witness: the general byte-3 split applied to USDTUSDT. -/
theorem C8_witness :
    extract_currency_pair (['U','S','D','T','U','S','D','T']) =
      some (['U','S','D'], ['T','U','S','D','T']) :=
  C8_amended (['U','S','D','T','U','S','D','T']) (by decide) (by decide)

/-- Claim C10 (confirmed): `extract_currency_pair` is partial at its public
interface: any symbol of fewer than 3 bytes makes the slice panic (modelled
as `none`), and a normal return decomposes the symbol as `base ++ quote`
with the base exactly 3 bytes — so a normal return needs at least 3 bytes
and a character boundary at byte 3. -/
theorem C10_thm : ∀ s : List Char,
    (utf8Len s < 3 → extract_currency_pair s = none) ∧
    (∀ a b, extract_currency_pair s = some (a, b) → s = a ++ b ∧ utf8Len a = 3) :=
  fun s => ⟨fun h => byteSplit_short s 3 h, fun a b h => byteSplit_some s 3 a b h⟩

/-- Claim C10 witness: the two-byte symbol AB makes the slice panic. -/
theorem C10_witness : extract_currency_pair (['A', 'B']) = none :=
  (C10_thm (['A', 'B'])).1 (by decide)

/-- One tick leaves the edge keys and the vertex list unchanged: the only
graph operation on the tick path is `update_edge`. -/
theorem applyTick_frame (g g2 : Graph) (d : TickerData) (h : applyTick g d = some g2) :
    g2.edges.map edgeKey = g.edges.map edgeKey ∧ g2.vertices = g.vertices := by
  unfold applyTick at h
  cases hx : extract_currency_pair d.s with
  | none => rw [hx] at h; exact absurd h (by simp)
  | some pq =>
    obtain ⟨startC, endC⟩ := pq
    rw [hx] at h
    cases hp : parsePrice d.c with
    | none =>
      rw [hp] at h
      simp only [Option.some.injEq] at h
      subst h
      exact ⟨rfl, rfl⟩
    | some p =>
      rw [hp] at h
      simp only [Option.some.injEq] at h
      subst h
      exact ⟨updateFirst_map_key g.edges startC endC p, rfl⟩

/-- The whole tick loop leaves the edge keys and the vertex list
unchanged. -/
theorem applyTicks_frame : ∀ (b : List TickerData) (g g2 : Graph),
    applyTicks g b = some g2 →
    g2.edges.map edgeKey = g.edges.map edgeKey ∧ g2.vertices = g.vertices := by
  intro b
  induction b with
  | nil =>
    intro g g2 h
    simp only [applyTicks, Option.some.injEq] at h
    subst h
    exact ⟨rfl, rfl⟩
  | cons d ds ih =>
    intro g g2 h
    unfold applyTicks at h
    cases ht : applyTick g d with
    | none => rw [ht] at h; exact absurd h (by simp)
    | some gm =>
      rw [ht] at h
      obtain ⟨h1, h2⟩ := applyTick_frame g gm d ht
      obtain ⟨h3, h4⟩ := ih gm g2 h
      exact ⟨h3.trans h1, h4.trans h2⟩

/-- Claim C9 (confirmed): a processed batch never changes the edge keys or
the vertex set — `update_edge` rewrites rates of existing edges and inserts
nothing — so starting from the empty graph of `Graph::new`, the graph after
any batch is still empty and the detector reports no cycle. -/
theorem C9_thm : ∀ (g : Graph) (batch : List TickerData) (g2 : Graph)
    (res : Option (List Currency)),
    process_ticker_data g batch = some (g2, res) →
    g2.edges.map edgeKey = g.edges.map edgeKey ∧ g2.vertices = g.vertices ∧
    (g = Graph.new → g2 = Graph.new ∧ res = none) := by
  intro g batch g2 res h
  unfold process_ticker_data at h
  cases ha : applyTicks g batch with
  | none => rw [ha] at h; exact absurd h (by simp)
  | some gm =>
    rw [ha] at h
    simp only [Option.some.injEq, Prod.mk.injEq] at h
    obtain ⟨hg, hr⟩ := h
    subst hg
    obtain ⟨h1, h2⟩ := applyTicks_frame batch g gm ha
    refine ⟨h1, h2, ?_⟩
    intro hnew
    subst hnew
    have he0 : gm.edges.map edgeKey = ([] : List (Currency × Currency)) := h1
    have he : gm.edges = [] := List.map_eq_nil_iff.mp he0
    have hv : gm.vertices = [] := h2
    constructor
    · cases gm with
      | mk es vs =>
        simp only at he hv
        subst he
        subst hv
        rfl
    · rw [← hr]
      unfold find_arbitrage
      rw [hv]

/-- Claim C9 witness: the batch with the single tick (BTCUSDT, 50000)
applied to the fresh empty graph leaves it empty and reports nothing. -/
theorem C9_witness :
    Graph.new.edges.map edgeKey = Graph.new.edges.map edgeKey ∧
    Graph.new.vertices = Graph.new.vertices ∧
    (Graph.new = Graph.new → Graph.new = Graph.new ∧
      (none : Option (List Currency)) = none) :=
  C9_thm Graph.new
    [{ s := ['B','T','C','U','S','D','T'], c := ['5','0','0','0','0'] }]
    Graph.new none (by decide)

/-- Every successful predecessor walk returns the reversal of the
accumulated chain closed by one repeated vertex. -/
theorem walkF_found_shape (pr : Currency → Option Currency) :
    ∀ (fuel : Nat) (cycle : List Currency) (last : Currency) (c : List Currency),
      walkF pr fuel cycle last = WalkRes.found c →
      ∃ cyc p, p ∈ cyc ∧ c = (cyc ++ [p]).reverse := by
  intro fuel
  induction fuel with
  | zero =>
    intro cycle last c h
    exact absurd h (by simp [walkF])
  | succ n ih =>
    intro cycle last c h
    unfold walkF at h
    cases hp : pr last with
    | none => rw [hp] at h; exact absurd h (by simp)
    | some p =>
      rw [hp] at h
      replace h : (if p ∈ cycle then WalkRes.found ((cycle ++ [p]).reverse)
          else walkF pr n (cycle ++ [p]) p) = WalkRes.found c := h
      by_cases hmem : p ∈ cycle
      · rw [if_pos hmem] at h
        simp only [WalkRes.found.injEq] at h
        exact ⟨cycle, p, hmem, h.symm⟩
      · rw [if_neg hmem] at h
        exact ih (cycle ++ [p]) p c h

/-- Claim C5 counterexample: on `G5` the final sweep triggers on the spoke
edge B to X, the walk starts at X outside the loop, and the emitted sequence
[B, A, B, X] begins with B but ends with X — its first element does not
equal its last, refuting the claimed closed-cycle shape. -/
theorem C5_cex :
    find_arbitrage G5 = some [bC, aC, bC, xC] ∧
    ([bC, aC, bC, xC] : List Currency).head? ≠
      ([bC, aC, bC, xC] : List Currency).getLast? := by
  decide

/-- Claim C5 (corrected): every emitted sequence is of the form `h :: t`
where the head `h` recurs somewhere in `t` — the walk closed a loop at the
head — so the sequence has at least two elements; but it may end in an
acyclic tail, so it need not begin and end with the same currency, and no
lower bound of three distinct currencies holds. -/
theorem C5_amended : ∀ (g : Graph) (s : List Currency),
    find_arbitrage g = some s →
    ∃ h t, s = h :: t ∧ h ∈ t := by
  intro g s hs
  unfold find_arbitrage at hs
  split at hs
  · exact absurd hs (by simp)
  · split at hs
    · exact absurd hs (by simp)
    · split at hs
      next c hw =>
        simp only [Option.some.injEq] at hs
        subst hs
        obtain ⟨cyc, p, hmem, hc⟩ := walkF_found_shape _ _ _ _ _ hw
        refine ⟨p, cyc.reverse, ?_, List.mem_reverse.mpr hmem⟩
        rw [hc]
        simp
      next => exact absurd hs (by simp)
      next => exact absurd hs (by simp)

/-- Claim C5 witness: the general shape theorem applied to the cycle the
detector finds on the three-currency example graph. -/
theorem C5_witness : ∃ h t, ([bC, cC, aC, bC] : List Currency) = h :: t ∧ h ∈ t :=
  C5_amended G3 [bC, cC, aC, bC] (by decide)

/-- Claim C7 counterexample: on `G7` the walk closes the loop B, A, B but
the code returns the whole reversed walk [B, A, B, Y] including the acyclic
tail Y — not the enclosed cycle [B, A, B] that the claim says is returned
(the returned sequence is not even closed). -/
theorem C7_cex :
    find_arbitrage G7 = some [bC, aC, bC, yC] ∧
    ([bC, aC, bC, yC] : List Currency) ≠ [bC, aC, bC] := by
  decide

/-- Claim C7 (corrected): the predecessor walk, though written as an
unbounded loop, can never exhaust the fuel budget `|V| + 1` used by
`find_arbitrage`: when every predecessor lies in the vertex list and the
accumulated chain is duplicate-free inside that list, the walk reaches a
repeat or a predecessor-free vertex within the budget — it terminates after
at most `|V|` steps.  What it returns on a repeat is the entire reversed
walk (see the counterexample), and a chain that ends without repeat makes
the detector report no cycle. -/
theorem C7_amended : ∀ (pr : Currency → Option Currency) (V : List Currency) (fuel : Nat)
    (cycle : List Currency) (last : Currency),
    (∀ v u, pr v = some u → u ∈ V) →
    cycle.Nodup →
    (∀ x ∈ cycle, x ∈ V) →
    V.length + 1 ≤ fuel + cycle.length →
    walkF pr fuel cycle last ≠ WalkRes.fuelOut := by
  intro pr V fuel
  induction fuel with
  | zero =>
    intro cycle last hpr hnd hsub hlen
    exfalso
    have h1 : cycle.toFinset.card = cycle.length := List.toFinset_card_of_nodup hnd
    have h2 : cycle.toFinset ⊆ V.toFinset := by
      intro x hx
      rw [List.mem_toFinset] at hx ⊢
      exact hsub x hx
    have h3 := Finset.card_le_card h2
    have h4 := List.toFinset_card_le V
    omega
  | succ n ih =>
    intro cycle last hpr hnd hsub hlen
    cases hp : pr last with
    | none =>
      unfold walkF
      rw [hp]
      simp
    | some p =>
      unfold walkF
      rw [hp]
      show (if p ∈ cycle then WalkRes.found ((cycle ++ [p]).reverse)
          else walkF pr n (cycle ++ [p]) p) ≠ WalkRes.fuelOut
      by_cases hmem : p ∈ cycle
      · rw [if_pos hmem]
        simp
      · rw [if_neg hmem]
        apply ih (cycle ++ [p]) p hpr
        · exact List.Nodup.append hnd (List.nodup_singleton p)
            (by intro a ha hb; rw [List.mem_singleton] at hb; subst hb; exact hmem ha)
        · intro x hx
          rcases List.mem_append.mp hx with hh | hh
          · exact hsub x hh
          · rw [List.mem_singleton] at hh
            rw [hh]
            exact hpr last p hp
        · simp only [List.length_append, List.length_singleton]
          omega

/-- Claim C7 witness: a predecessor map with no predecessors at all, one
vertex and fuel 2 — the walk ends by chain end, not by fuel. -/
theorem C7_witness : walkF (fun _ => none) 2 [aC] aC ≠ WalkRes.fuelOut :=
  C7_amended (fun _ => none) [aC] 2 [aC] aC (fun _ _ h => nomatch h) (by decide)
    (by decide) (by decide)
